import Mathlib

/-!
Verification of the stream-demultiplexer core of the SearchApp repository
(`web/src/app/utils/parse-streaming.ts`, single-stream variant, and the
three-request variant of `parseStreaming`).  The TypeScript code is shallowly
embedded: strings are `List Char`, the JavaScript regex-rewrite pipeline is a
left-to-right non-overlapping scanner, `JSON.parse` is an executable JSON
parser, and the chunk loop is a state machine over an explicit buffer.
-/

set_option maxRecDepth 10000

/-- Match a literal character-list prefix; on success return the remainder.
This models the position-wise literal part of a JavaScript regex match. -/
def matchLit : List Char → List Char → Option (List Char)
  | [], u => some u
  | _ :: _, [] => none
  | p :: ps, c :: u => if c = p then matchLit ps u else none

theorem matchLit_some : ∀ p u r, matchLit p u = some r → u = p ++ r := by
  intro p
  induction p with
  | nil => intro u r h; simpa [matchLit] using h
  | cons a ps ih =>
    intro u r h
    cases u with
    | nil => simp [matchLit] at h
    | cons c t =>
      by_cases hc : c = a
      · subst hc
        simp only [matchLit, if_pos rfl] at h
        simpa using ih t r h
      · simp [matchLit, hc] at h

theorem matchLit_refl : ∀ p r, matchLit p (p ++ r) = some r := by
  intro p
  induction p with
  | nil => intro r; simp [matchLit]
  | cons a ps ih => intro r; simp [matchLit, ih]

/-- `takeWhile`/`dropWhile` on a list that is an all-true block followed by a
false element. -/
theorem takeWhile_block (pr : Char → Bool) :
    ∀ ds e r, (∀ a ∈ ds, pr a = true) → pr e = false →
      (ds ++ e :: r).takeWhile pr = ds ∧ (ds ++ e :: r).dropWhile pr = e :: r := by
  intro ds
  induction ds with
  | nil => intro e r _ he; simp [List.takeWhile, List.dropWhile, he]
  | cons a t ih =>
    intro e r hall he
    have ha : pr a = true := hall a (by simp)
    have ht := ih e r (fun x hx => hall x (by simp [hx])) he
    simp [List.takeWhile, List.dropWhile, ha, ht.1, ht.2]

/-- The first sentinel token of the stream protocol. -/
def LLM_SPLIT : List Char := ("__LLM_RESPONSE__").data

/-- The second sentinel token of the stream protocol. -/
def RELATED_SPLIT : List Char := ("__RELATED_QUESTIONS__").data

/- ## The citation-normalization rewrites

The TypeScript pipeline is, in order:
  (1) `.replace(/\[\[([cC])itation/g, "[citation")`
  (2) `.replace(/[cC]itation:(\d+)]]/g, "citation:$1]")`
  (3) `.replace(/\[\[([cC]itation:\d+)]](?!])/g, "[$1]")`
  (4) `.replace(/\[[cC]itation:(\d+)]/g, "[citation]($1)")`
and the three-request variant inserts
  (FW) `.replace(/【citation:(\d+)】/g, "[citation]($1)")`
between (3) and (4).  Each `try?` below decides a match of the corresponding
regex at the head of the input and returns the replacement text plus the
remainder after the matched text. -/

def llit : List Char := ("[[").data
def itcol : List Char := ("itation:").data
def itat : List Char := ("itation").data
def citL : List Char := ("[citation](").data
def rrlit : List Char := ("]]").data
def fwOpen : List Char := ("【citation:").data

/-- Head match of rule (1): `\[\[([cC])itation`, replacement `"[citation"`. -/
def try1 (u : List Char) : Option (List Char × List Char) :=
  match matchLit llit u with
  | none => none
  | some r0 =>
    match r0 with
    | [] => none
    | x :: r1 =>
      if x = 'c' ∨ x = 'C' then
        match matchLit itat r1 with
        | none => none
        | some r2 => some (('[' :: ("citation").data), r2)
      else none

/-- Head match of rule (2): `[cC]itation:(\d+)]]`, replacement `"citation:$1]"`. -/
def try2 (u : List Char) : Option (List Char × List Char) :=
  match u with
  | [] => none
  | x :: r1 =>
    if x = 'c' ∨ x = 'C' then
      match matchLit itcol r1 with
      | none => none
      | some r2 =>
        let ds := r2.takeWhile Char.isDigit
        let r3 := r2.dropWhile Char.isDigit
        if ds = [] then none
        else
          match matchLit rrlit r3 with
          | none => none
          | some r4 => some (("citation:").data ++ ds ++ [']'], r4)
    else none

/-- Head match of rule (3): `\[\[([cC]itation:\d+)]](?!])`, replacement `"[$1]"`
(the capture keeps the original case of the `c`). -/
def try3 (u : List Char) : Option (List Char × List Char) :=
  match matchLit llit u with
  | none => none
  | some r0 =>
    match r0 with
    | [] => none
    | x :: r1 =>
      if x = 'c' ∨ x = 'C' then
        match matchLit itcol r1 with
        | none => none
        | some r2 =>
          let ds := r2.takeWhile Char.isDigit
          let r3 := r2.dropWhile Char.isDigit
          if ds = [] then none
          else
            match matchLit rrlit r3 with
            | none => none
            | some r4 =>
              if r4.head? = some ']' then none
              else some ('[' :: x :: itcol ++ ds ++ [']'], r4)
      else none

/-- Head match of rule (4): `\[[cC]itation:(\d+)]`, replacement `"[citation]($1)"`. -/
def try4 (u : List Char) : Option (List Char × List Char) :=
  match u with
  | [] => none
  | b :: r0 =>
    if b = '[' then
      match r0 with
      | [] => none
      | x :: r1 =>
        if x = 'c' ∨ x = 'C' then
          match matchLit itcol r1 with
          | none => none
          | some r2 =>
            let ds := r2.takeWhile Char.isDigit
            let r3 := r2.dropWhile Char.isDigit
            if ds = [] then none
            else
              match r3 with
              | ']' :: r4 => some (citL ++ ds ++ [')'], r4)
              | _ => none
        else none
    else none

/-- Head match of the full-width rule (FW): `【citation:(\d+)】`,
replacement `"[citation]($1)"`. -/
def tryFW (u : List Char) : Option (List Char × List Char) :=
  match matchLit fwOpen u with
  | none => none
  | some r1 =>
    let ds := r1.takeWhile Char.isDigit
    let r2 := r1.dropWhile Char.isDigit
    if ds = [] then none
    else
      match r2 with
      | '】' :: r3 => some (citL ++ ds ++ [')'], r3)
      | _ => none

/-- Fuel-indexed scanner implementing JavaScript `String.replace` with a `g`
regex: leftmost match, replacement text is not re-scanned, scanning resumes
after the matched text. -/
def rewF (tr : List Char → Option (List Char × List Char)) :
    Nat → List Char → List Char
  | 0, s => s
  | _ + 1, [] => []
  | n + 1, c :: t =>
    match tr (c :: t) with
    | some (rep, rest) => rep ++ rewF tr n rest
    | none => c :: rewF tr n t

/-- One global-replace pass of a rule over a string. -/
def applyRule (tr : List Char → Option (List Char × List Char))
    (s : List Char) : List Char :=
  rewF tr s.length s

def rule1 (s : List Char) : List Char := applyRule try1 s
def rule2 (s : List Char) : List Char := applyRule try2 s
def rule3 (s : List Char) : List Char := applyRule try3 s
def rule4 (s : List Char) : List Char := applyRule try4 s
def ruleFW (s : List Char) : List Char := applyRule tryFW s

/-- The four-rewrite citation-normalization pipeline of the single-stream
variant, on character lists. -/
def normalizeL (s : List Char) : List Char := rule4 (rule3 (rule2 (rule1 s)))

/-- The citation-normalization pipeline of the single-stream variant. -/
def citationNormalize (s : String) : String := ⟨normalizeL s.data⟩

/-- The five-rewrite pipeline of the three-request variant (full-width rule
inserted before rule 4). -/
def normalizeFullL (s : List Char) : List Char :=
  rule4 (ruleFW (rule3 (rule2 (rule1 s))))

/-- The citation-normalization pipeline of the three-request variant. -/
def citationNormalizeFull (s : String) : String := ⟨normalizeFullL s.data⟩

example : citationNormalize ("see [[citation:3]] here") = ("see [citation](3) here") := by decide
example : citationNormalize ("[[Citation:12]]") = ("[citation](12)") := by decide
example : citationNormalize ("citation:3]]]") = ("citation:3]]") := by decide
example : citationNormalize ("citation:3]]") = ("citation:3]") := by decide

/- ## Adjacent-pair predicates

`hasAdj p s` holds when some pair of adjacent characters of `s` satisfies `p`.
With `pLL`/`pRR` it expresses that `s` contains the two-character substrings
`[[` or `]]`, the shapes on which the rewrite pipeline loses idempotence. -/

def pLL (x y : Char) : Bool := x = '[' && y = '['
def pRR (x y : Char) : Bool := x = ']' && y = ']'
def pBrk (x y : Char) : Bool := (x = '[' || x = ']') && (y = '[' || y = ']')

def hasAdj (p : Char → Char → Bool) : List Char → Bool
  | a :: b :: t => p a b || hasAdj p (b :: t)
  | _ => false

theorem hasAdj_cons_of_tail (p : Char → Char → Bool) (c : Char) (l : List Char)
    (h : hasAdj p l = true) : hasAdj p (c :: l) = true := by
  cases l with
  | nil => simp [hasAdj] at h
  | cons b t => simp [hasAdj, h]

theorem hasAdj_tail (p : Char → Char → Bool) (c : Char) (l : List Char)
    (h : hasAdj p (c :: l) = false) : hasAdj p l = false := by
  cases l with
  | nil => simp [hasAdj]
  | cons b t =>
    simp only [hasAdj, Bool.or_eq_false_iff] at h
    exact h.2

theorem hasAdj_append_right (p : Char → Char → Bool) :
    ∀ u t, hasAdj p t = true → hasAdj p (u ++ t) = true := by
  intro u
  induction u with
  | nil => intro t h; simpa using h
  | cons c u' ih => intro t h; exact hasAdj_cons_of_tail p c _ (ih t h)

theorem hasAdj_pair (p : Char → Char → Bool) (a b : Char) (h : p a b = true) :
    ∀ v w, hasAdj p (v ++ a :: b :: w) = true := by
  intro v w
  induction v with
  | nil => simp [hasAdj, h]
  | cons c v' ih => exact hasAdj_cons_of_tail p c _ ih

theorem hasAdj_mono (p q : Char → Char → Bool)
    (hpq : ∀ x y, p x y = true → q x y = true) :
    ∀ l, hasAdj q l = false → hasAdj p l = false := by
  intro l
  induction l with
  | nil => intro _; rfl
  | cons a t ih =>
    cases t with
    | nil => intro _; rfl
    | cons b t' =>
      intro h
      simp only [hasAdj, Bool.or_eq_false_iff] at h ⊢
      refine ⟨?_, ih h.2⟩
      by_contra hp
      have := hpq a b (by revert hp; cases p a b <;> simp)
      rw [this] at h
      exact absurd h.1 (by simp)

theorem hasAdj_false_of_left (p : Char → Char → Bool) :
    ∀ l, (∀ x ∈ l, ∀ y, p x y = false) → hasAdj p l = false := by
  intro l
  induction l with
  | nil => intro _; rfl
  | cons a t ih =>
    intro h
    cases t with
    | nil => rfl
    | cons b t' =>
      simp only [hasAdj, Bool.or_eq_false_iff]
      exact ⟨h a (by simp) b, ih (fun x hx y => h x (by simp [hx]) y)⟩

theorem hasAdj_append_false (p : Char → Char → Bool) :
    ∀ a b, hasAdj p a = false → hasAdj p b = false →
      (∀ x y, a.getLast? = some x → b.head? = some y → p x y = false) →
      hasAdj p (a ++ b) = false := by
  intro a
  induction a with
  | nil => intro b _ hb _; simpa using hb
  | cons c a' ih =>
    intro b ha hb hj
    cases a' with
    | nil =>
      cases b with
      | nil => rfl
      | cons y b' =>
        simp only [List.singleton_append, hasAdj, Bool.or_eq_false_iff]
        exact ⟨hj c y rfl rfl, hb⟩
    | cons d a'' =>
      simp only [List.cons_append, hasAdj, Bool.or_eq_false_iff] at ha ⊢
      have hrest : hasAdj p ((d :: a'') ++ b) = false := by
        refine ih b ha.2 hb ?_
        intro x y hx hy
        refine hj x y ?_ hy
        simpa [List.getLast?] using hx
      refine ⟨ha.1, ?_⟩
      simpa using hrest

/- ## Generic scanner lemmas -/

theorem rewF_id_of_nomatch (tr : List Char → Option (List Char × List Char)) :
    ∀ n s, (∀ t, t <:+ s → tr t = none) → rewF tr n s = s := by
  intro n
  induction n with
  | zero => intro s _; rfl
  | succ m ih =>
    intro s h
    cases s with
    | nil => rfl
    | cons c t =>
      have hc : tr (c :: t) = none := h _ (List.suffix_refl _)
      have ht : rewF tr m t = t :=
        ih t (fun u hu => h u (hu.trans (List.suffix_cons c t)))
      simp [rewF, hc, ht]

theorem applyRule_id_of_nomatch (tr : List Char → Option (List Char × List Char))
    (s : List Char) (h : ∀ t, t <:+ s → tr t = none) : applyRule tr s = s :=
  rewF_id_of_nomatch tr s.length s h

theorem rewF_eq_of_le (tr : List Char → Option (List Char × List Char))
    (hlen : ∀ u rep rest, tr u = some (rep, rest) → rest.length < u.length) :
    ∀ n m s, s.length ≤ n → s.length ≤ m → rewF tr n s = rewF tr m s := by
  intro n
  induction n with
  | zero =>
    intro m s hn _
    have : s = [] := List.length_eq_zero.mp (Nat.le_zero.mp hn)
    subst this
    cases m <;> rfl
  | succ k ih =>
    intro m s hn hm
    cases s with
    | nil => cases m <;> rfl
    | cons c t =>
      cases m with
      | zero => simp at hm
      | succ m' =>
        simp only [List.length_cons, Nat.succ_le_succ_iff] at hn hm
        cases h : tr (c :: t) with
        | none => simp [rewF, h, ih m' t hn hm]
        | some pr =>
          obtain ⟨rep, rest⟩ := pr
          have hr : rest.length < t.length + 1 := hlen _ _ _ h
          have hr' : rest.length ≤ t.length := Nat.lt_succ_iff.mp hr
          simp [rewF, h, ih m' rest (hr'.trans hn) (hr'.trans hm)]

theorem applyRule_cons (tr : List Char → Option (List Char × List Char))
    (hlen : ∀ u rep rest, tr u = some (rep, rest) → rest.length < u.length)
    (c : Char) (t : List Char) :
    applyRule tr (c :: t) =
      match tr (c :: t) with
      | some (rep, rest) => rep ++ applyRule tr rest
      | none => c :: applyRule tr t := by
  cases h : tr (c :: t) with
  | none => simp [applyRule, rewF, h]
  | some pr =>
    obtain ⟨rep, rest⟩ := pr
    have hr : rest.length ≤ t.length := Nat.lt_succ_iff.mp (hlen _ _ _ h)
    simp only [applyRule, List.length_cons, rewF, h]
    rw [rewF_eq_of_le tr hlen t.length rest.length rest hr (Nat.le_refl _)]

/- ## Structure of rule-4 matches -/

theorem mem_takeWhile_pred (pr : Char → Bool) :
    ∀ (l : List Char) (a : Char), a ∈ l.takeWhile pr → pr a = true := by
  intro l
  induction l with
  | nil => intro a ha; simp [List.takeWhile] at ha
  | cons c t ih =>
    intro a ha
    cases hc : pr c with
    | false => rw [List.takeWhile_cons, hc] at ha; simp at ha
    | true =>
      rw [List.takeWhile_cons, hc] at ha
      rcases List.mem_cons.mp ha with h | h
      · rwa [h]
      · exact ih a h

def citTail : List Char := ['c', 'i', 't', 'a', 't', 'i', 'o', 'n', ']', '(']

theorem citL_eq_cons : citL = '[' :: citTail := by decide

theorem digit_ne_lb (c : Char) (h : c.isDigit = true) : c ≠ '[' := by
  intro he; subst he; exact absurd h (by decide)

theorem digit_ne_rb (c : Char) (h : c.isDigit = true) : c ≠ ']' := by
  intro he; subst he; exact absurd h (by decide)

theorem try4_some (u rep rest : List Char) (h : try4 u = some (rep, rest)) :
    ∃ x ds, (x = 'c' ∨ x = 'C') ∧ ds ≠ [] ∧ (∀ d ∈ ds, d.isDigit = true) ∧
      u = '[' :: x :: itcol ++ ds ++ ']' :: rest ∧ rep = citL ++ ds ++ [')'] := by
  cases u with
  | nil => simp [try4] at h
  | cons b r0 =>
    by_cases hb : b = '['
    · subst hb
      cases r0 with
      | nil => simp [try4] at h
      | cons x r1 =>
        by_cases hx : x = 'c' ∨ x = 'C'
        · cases hm : matchLit itcol r1 with
          | none => simp [try4, hx, hm] at h
          | some r2 =>
            by_cases hds : r2.takeWhile Char.isDigit = []
            · simp [try4, hx, hm, hds] at h
            · cases hr3 : r2.dropWhile Char.isDigit with
              | nil => simp [try4, hx, hm, hds, hr3] at h
              | cons e r4 =>
                by_cases he : e = ']'
                · subst he
                  have h' : citL ++ r2.takeWhile Char.isDigit ++ [')'] = rep ∧ r4 = rest := by
                    have hh := h
                    simp only [try4, hx, if_true, hm, hds, hr3] at hh
                    simpa using hh
                  have hr1 : r1 = itcol ++ r2 := matchLit_some _ _ _ hm
                  have hr2 : r2 = r2.takeWhile Char.isDigit ++ ']' :: r4 := by
                    conv_lhs => rw [← List.takeWhile_append_dropWhile (p := Char.isDigit) (l := r2)]
                    rw [hr3]
                  obtain ⟨hrep', hrest⟩ := h'
                  refine ⟨x, r2.takeWhile Char.isDigit, hx, hds,
                    fun d hd => mem_takeWhile_pred _ _ _ hd, ?_, hrep'.symm⟩
                  conv_lhs => rw [hr1, hr2]
                  rw [hrest]
                  simp
                · simp [try4, hx, hm, hds, hr3, he] at h
        · simp [try4, hx] at h
    · simp [try4, hb] at h

theorem try4_mk (x : Char) (ds rest : List Char) (hx : x = 'c' ∨ x = 'C')
    (hne : ds ≠ []) (hds : ∀ d ∈ ds, d.isDigit = true) :
    try4 ('[' :: x :: itcol ++ ds ++ ']' :: rest) = some (citL ++ ds ++ [')'], rest) := by
  have hblock := takeWhile_block Char.isDigit ds ']' rest hds (by decide)
  simp [try4, hx, matchLit_refl, hblock.1, hblock.2, hne]

theorem try4_len (u rep rest : List Char) (h : try4 u = some (rep, rest)) :
    rest.length < u.length := by
  obtain ⟨x, ds, _, _, _, hu, _⟩ := try4_some u rep rest h
  subst hu
  simp [itcol]
  omega

theorem try4_none_head (a : Char) (l : List Char) (ha : a ≠ '[') :
    try4 (a :: l) = none := by
  simp [try4, ha]

theorem applyRule4_head (d : Char) (t' : List Char) :
    (applyRule try4 (d :: t')).head? = some d := by
  rw [applyRule_cons try4 try4_len]
  cases h : try4 (d :: t') with
  | none => rfl
  | some pr =>
    obtain ⟨rep, rest⟩ := pr
    obtain ⟨x, ds, _, _, _, hu, hrep⟩ := try4_some _ _ _ h
    have hd : d = '[' := (List.cons.injEq _ _ _ _).mp hu |>.1
    subst hrep
    rw [citL_eq_cons, hd]
    simp [citTail]

theorem applyRule4_pref : ∀ n t q, t.length ≤ n → (∀ a ∈ q, a ≠ '[') →
    (∃ w, applyRule try4 t = q ++ w) → ∃ w, t = q ++ w := by
  intro n
  induction n with
  | zero =>
    intro t q hn _ hw
    have ht : t = [] := List.length_eq_zero.mp (Nat.le_zero.mp hn)
    subst ht
    obtain ⟨w, hw⟩ := hw
    have : q ++ w = [] := by simpa [applyRule, rewF] using hw.symm
    exact ⟨[], by simp [List.append_eq_nil.mp this |>.1]⟩
  | succ m ih =>
    intro t q hn hq hw
    cases q with
    | nil => exact ⟨t, rfl⟩
    | cons a q' =>
      obtain ⟨w, hw⟩ := hw
      cases t with
      | nil => simp [applyRule, rewF] at hw
      | cons d t' =>
        rw [applyRule_cons try4 try4_len] at hw
        cases h4 : try4 (d :: t') with
        | some pr =>
          obtain ⟨rep, rest⟩ := pr
          rw [h4] at hw
          obtain ⟨x, ds, _, _, _, _, hrep⟩ := try4_some _ _ _ h4
          subst hrep
          rw [citL_eq_cons] at hw
          simp only [List.cons_append, List.append_assoc] at hw
          have ha : a = '[' := ((List.cons.injEq _ _ _ _).mp hw).1.symm
          exact absurd ha (hq a (by simp))
        | none =>
          rw [h4] at hw
          have hd : d = a := ((List.cons.injEq _ _ _ _).mp hw).1
          have htl : applyRule try4 t' = q' ++ w := ((List.cons.injEq _ _ _ _).mp hw).2
          have hn' : t'.length ≤ m := by
            simp only [List.length_cons, Nat.succ_le_succ_iff] at hn
            exact hn
          obtain ⟨w', hw'⟩ := ih t' q' hn' (fun b hb => hq b (by simp [hb])) ⟨w, htl⟩
          exact ⟨w', by rw [hd, hw']; rfl⟩

theorem applyRule4_peel : ∀ v u, (∀ a ∈ v, a ≠ '[') →
    applyRule try4 (v ++ u) = v ++ applyRule try4 u := by
  intro v
  induction v with
  | nil => intro u _; rfl
  | cons a v' ih =>
    intro u hv
    have ha : a ≠ '[' := hv a (by simp)
    rw [List.cons_append, applyRule_cons try4 try4_len,
      try4_none_head a _ ha]
    show a :: applyRule try4 (v' ++ u) = a :: v' ++ applyRule try4 u
    rw [ih u (fun b hb => hv b (by simp [hb]))]
    rfl

theorem try4_rep_head (ds u : List Char) :
    try4 ('[' :: (citTail ++ (ds ++ (')' :: u)))) = none := by
  simp [try4, citTail, itcol, matchLit]

theorem applyRule4_rep (ds u : List Char) (hds : ∀ d ∈ ds, d.isDigit = true) :
    applyRule try4 (citL ++ ds ++ [')'] ++ u) =
      citL ++ ds ++ [')'] ++ applyRule try4 u := by
  have h0 : citL ++ ds ++ [')'] ++ u = '[' :: (citTail ++ (ds ++ (')' :: u))) := by
    rw [citL_eq_cons]; simp
  rw [h0, applyRule_cons try4 try4_len, try4_rep_head ds u]
  show '[' :: applyRule try4 (citTail ++ (ds ++ (')' :: u))) = _
  rw [applyRule4_peel citTail _ (by decide)]
  rw [applyRule4_peel ds _ (fun d hd => digit_ne_lb d (hds d hd))]
  rw [show (')' :: u) = [')'] ++ u from rfl, applyRule4_peel [')'] u (by decide)]
  rw [citL_eq_cons]
  simp

theorem applyRule4_idem_aux : ∀ n s, s.length ≤ n →
    applyRule try4 (applyRule try4 s) = applyRule try4 s := by
  intro n
  induction n with
  | zero =>
    intro s hn
    have : s = [] := List.length_eq_zero.mp (Nat.le_zero.mp hn)
    subst this; rfl
  | succ m ih =>
    intro s hn
    cases s with
    | nil => rfl
    | cons c t =>
      cases h4 : try4 (c :: t) with
      | none =>
        have e1 : applyRule try4 (c :: t) = c :: applyRule try4 t := by
          rw [applyRule_cons try4 try4_len, h4]
        rw [e1]
        have hnone : try4 (c :: applyRule try4 t) = none := by
          cases h' : try4 (c :: applyRule try4 t) with
          | none => rfl
          | some pr =>
            exfalso
            obtain ⟨rep, rest⟩ := pr
            obtain ⟨x, ds, hx, hne, hds, hu, _⟩ := try4_some _ _ _ h'
            have hc : c = '[' := ((List.cons.injEq _ _ _ _).mp hu).1
            have hA : applyRule try4 t = (x :: itcol ++ ds ++ [']']) ++ rest := by
              have := ((List.cons.injEq _ _ _ _).mp hu).2
              rw [this]; simp
            have hq : ∀ a ∈ x :: itcol ++ ds ++ [']'], a ≠ '[' := by
              intro a ha
              have ha' : a = x ∨ a ∈ itcol ∨ a ∈ ds ∨ a = ']' := by
                simpa [List.mem_append, List.mem_cons, or_assoc] using ha
              rcases ha' with h | h | h | h
              · subst h
                rcases hx with h | h <;> (subst h; decide)
              · exact (by decide : ∀ b ∈ itcol, b ≠ '[') a h
              · exact digit_ne_lb a (hds a h)
              · subst h; decide
            obtain ⟨w, hw⟩ :=
              applyRule4_pref t.length t _ (Nat.le_refl _) hq ⟨rest, hA⟩
            have hmk : try4 (c :: t) = some (citL ++ ds ++ [')'], w) := by
              rw [hc, hw]
              have := try4_mk x ds w hx hne hds
              simpa using this
            rw [h4] at hmk
            exact absurd hmk (by simp)
        rw [applyRule_cons try4 try4_len, hnone]
        show c :: applyRule try4 (applyRule try4 t) = c :: applyRule try4 t
        have hn' : t.length ≤ m := by
          simp only [List.length_cons, Nat.succ_le_succ_iff] at hn
          exact hn
        rw [ih t hn']
      | some pr =>
        obtain ⟨rep, rest⟩ := pr
        obtain ⟨x, ds, hx, hne, hds, hu, hrep⟩ := try4_some _ _ _ h4
        have e1 : applyRule try4 (c :: t) =
            citL ++ ds ++ [')'] ++ applyRule try4 rest := by
          rw [applyRule_cons try4 try4_len, h4, hrep]
        rw [e1, applyRule4_rep ds _ hds]
        have hlt : rest.length ≤ m := by
          have h1 := try4_len _ _ _ h4
          have h2 : (c :: t).length ≤ m + 1 := hn
          simp only [List.length_cons] at h1 h2
          omega
        rw [ih rest hlt]

/-- Rule 4 of the pipeline is idempotent on every string. -/
theorem rule4_idem (s : List Char) : rule4 (rule4 s) = rule4 s :=
  applyRule4_idem_aux s.length s (Nat.le_refl _)

/- ## Rule 4 preserves absence of doubled brackets -/

theorem p_false_left (p : Char → Char → Bool)
    (hp : ∀ x y, p x y = true → (x = '[' ∨ x = ']') ∧ (y = '[' ∨ y = ']'))
    (x y : Char) (hx1 : x ≠ '[') (hx2 : x ≠ ']') : p x y = false := by
  cases h : p x y
  · rfl
  · rcases (hp x y h).1 with h1 | h1
    · exact absurd h1 hx1
    · exact absurd h1 hx2

theorem p_le_pBrk (p : Char → Char → Bool)
    (hp : ∀ x y, p x y = true → (x = '[' ∨ x = ']') ∧ (y = '[' ∨ y = ']')) :
    ∀ x y, p x y = true → pBrk x y = true := by
  intro x y h
  obtain ⟨h1, h2⟩ := hp x y h
  simp [pBrk]
  exact ⟨h1, h2⟩

theorem pBrk_false_left (x y : Char) (hx1 : x ≠ '[') (hx2 : x ≠ ']') :
    pBrk x y = false := by
  simp [pBrk, hx1, hx2]

theorem getLast?_append_singleton (l : List Char) (x : Char) :
    (l ++ [x]).getLast? = some x := by
  induction l with
  | nil => rfl
  | cons a t ih =>
    rw [List.cons_append]
    cases h : t ++ [x] with
    | nil => exact absurd h (by simp)
    | cons b u =>
      rw [List.getLast?_cons_cons, ← h, ih]

theorem getLast?_mem_list : ∀ (l : List Char) (x : Char), l.getLast? = some x → x ∈ l := by
  intro l
  induction l with
  | nil => intro x h; simp [List.getLast?] at h
  | cons a t ih =>
    intro x h
    cases t with
    | nil =>
      simp [List.getLast?] at h
      simp [h]
    | cons b t' =>
      rw [List.getLast?_cons_cons] at h
      exact List.mem_cons_of_mem a (ih x h)

theorem getLast?_append_right (a b : List Char) (hb : b ≠ []) :
    (a ++ b).getLast? = b.getLast? := by
  induction a with
  | nil => rfl
  | cons c a' ih =>
    rw [List.cons_append, ← ih]
    cases h : a' ++ b with
    | nil => exact absurd (List.append_eq_nil.mp h).2 hb
    | cons d u => rw [List.getLast?_cons_cons]

theorem hasAdj_rep_false (p : Char → Char → Bool)
    (hp : ∀ x y, p x y = true → (x = '[' ∨ x = ']') ∧ (y = '[' ∨ y = ']'))
    (ds : List Char) (hds : ∀ d ∈ ds, d.isDigit = true) :
    hasAdj p (citL ++ ds ++ [')']) = false := by
  apply hasAdj_mono p pBrk (p_le_pBrk p hp)
  apply hasAdj_append_false
  · apply hasAdj_append_false
    · decide
    · apply hasAdj_false_of_left
      intro x hx y
      exact pBrk_false_left x y (digit_ne_lb x (hds x hx)) (digit_ne_rb x (hds x hx))
    · intro x y hx _
      have : x = '(' := by
        have hg : citL.getLast? = some '(' := by decide
        rw [hg] at hx
        exact (Option.some.injEq _ _).mp hx.symm
      subst this
      exact pBrk_false_left '(' y (by decide) (by decide)
  · rfl
  · intro x y hx _
    cases hd : ds with
    | nil =>
      subst hd
      simp only [List.append_nil] at hx
      have : x = '(' := by
        have hg : citL.getLast? = some '(' := by decide
        rw [hg] at hx
        exact (Option.some.injEq _ _).mp hx.symm
      subst this
      exact pBrk_false_left '(' y (by decide) (by decide)
    | cons a t =>
      subst hd
      rw [getLast?_append_right citL _ (by simp)] at hx
      have hx' : x ∈ a :: t := getLast?_mem_list _ x hx
      exact pBrk_false_left x y (digit_ne_lb x (hds x hx')) (digit_ne_rb x (hds x hx'))

theorem applyRule4_pres (p : Char → Char → Bool)
    (hp : ∀ x y, p x y = true → (x = '[' ∨ x = ']') ∧ (y = '[' ∨ y = ']')) :
    ∀ n s, s.length ≤ n → hasAdj p s = false →
      hasAdj p (applyRule try4 s) = false := by
  intro n
  induction n with
  | zero =>
    intro s hn hs
    have : s = [] := List.length_eq_zero.mp (Nat.le_zero.mp hn)
    subst this
    exact hs
  | succ m ih =>
    intro s hn hs
    cases s with
    | nil => exact hs
    | cons c t =>
      cases h4 : try4 (c :: t) with
      | none =>
        rw [applyRule_cons try4 try4_len, h4]
        show hasAdj p (c :: applyRule try4 t) = false
        cases t with
        | nil => rfl
        | cons d t' =>
          have hh := applyRule4_head d t'
          cases hA : applyRule try4 (d :: t') with
          | nil => rfl
          | cons e A' =>
            rw [hA] at hh
            have he : e = d := by simpa using hh
            subst he
            simp only [hasAdj, Bool.or_eq_false_iff]
            constructor
            · have hcd := hs
              simp only [hasAdj, Bool.or_eq_false_iff] at hcd
              exact hcd.1
            · rw [← hA]
              apply ih (e :: t') _ (hasAdj_tail p c _ hs)
              simp only [List.length_cons] at hn ⊢
              omega
      | some pr =>
        obtain ⟨rep, rest⟩ := pr
        obtain ⟨x, ds, hx, hne, hds, hu, hrep⟩ := try4_some _ _ _ h4
        rw [applyRule_cons try4 try4_len, h4]
        show hasAdj p (rep ++ applyRule try4 rest) = false
        subst hrep
        apply hasAdj_append_false
        · exact hasAdj_rep_false p hp ds hds
        · have hrest_adj : hasAdj p rest = false := by
            cases hr : hasAdj p rest with
            | false => rfl
            | true =>
              exfalso
              have hsplit : c :: t = ('[' :: x :: itcol ++ ds ++ [']']) ++ rest := by
                rw [hu]; simp
              rw [hsplit] at hs
              rw [hasAdj_append_right p _ rest hr] at hs
              exact absurd hs (by simp)
          apply ih rest _ hrest_adj
          have hl := try4_len _ _ _ h4
          simp only [List.length_cons] at hn hl
          omega
        · intro a b hga _
          have hassoc : citL ++ ds ++ [')'] = (citL ++ ds) ++ [')'] := by
            rw [List.append_assoc]
          rw [hassoc, getLast?_append_singleton] at hga
          have ha : a = ')' := (Option.some.injEq _ _).mp hga.symm
          subst ha
          exact p_false_left p hp ')' b (by decide) (by decide)

/- ## Rules 1, 2 and 3 are the identity on strings without doubled brackets -/

theorem try1_some_hasLL (u : List Char) (pr : List Char × List Char)
    (h : try1 u = some pr) : hasAdj pLL u = true := by
  cases hm : matchLit llit u with
  | none => simp [try1, hm] at h
  | some r0 =>
    rw [matchLit_some _ _ _ hm, show llit = ['[', '['] from by decide]
    simp [hasAdj, pLL, List.cons_append]

theorem try3_some_hasLL (u : List Char) (pr : List Char × List Char)
    (h : try3 u = some pr) : hasAdj pLL u = true := by
  cases hm : matchLit llit u with
  | none => simp [try3, hm] at h
  | some r0 =>
    rw [matchLit_some _ _ _ hm, show llit = ['[', '['] from by decide]
    simp [hasAdj, pLL, List.cons_append]

theorem try2_some_hasRR (u : List Char) (pr : List Char × List Char)
    (h : try2 u = some pr) : hasAdj pRR u = true := by
  cases u with
  | nil => simp [try2] at h
  | cons x r1 =>
    by_cases hx : x = 'c' ∨ x = 'C'
    · cases hm : matchLit itcol r1 with
      | none => simp [try2, hx, hm] at h
      | some r2 =>
        by_cases hds : r2.takeWhile Char.isDigit = []
        · simp [try2, hx, hm, hds] at h
        · cases hmm : matchLit rrlit (r2.dropWhile Char.isDigit) with
          | none => simp [try2, hx, hm, hds, hmm] at h
          | some r4 =>
            have hr1 : r1 = itcol ++ r2 := matchLit_some _ _ _ hm
            have hr3 : r2.dropWhile Char.isDigit = ']' :: ']' :: r4 := by
              rw [matchLit_some _ _ _ hmm, show rrlit = [']', ']'] from by decide]
              rfl
            have hr2 : r2 = r2.takeWhile Char.isDigit ++ ']' :: ']' :: r4 := by
              conv_lhs => rw [← List.takeWhile_append_dropWhile (p := Char.isDigit) (l := r2)]
              rw [hr3]
            have hu : x :: r1 =
                (x :: itcol ++ r2.takeWhile Char.isDigit) ++ ']' :: ']' :: r4 := by
              rw [hr1]
              conv_lhs => rw [hr2]
              simp
            rw [hu]
            exact hasAdj_pair pRR ']' ']' (by decide) _ r4
    · simp [try2, hx] at h

theorem rule1_id (s : List Char) (h : hasAdj pLL s = false) : rule1 s = s := by
  apply applyRule_id_of_nomatch
  intro t hts
  cases h1 : try1 t with
  | none => rfl
  | some pr =>
    exfalso
    obtain ⟨u, hu⟩ := hts
    rw [← hu, hasAdj_append_right pLL u t (try1_some_hasLL t pr h1)] at h
    exact absurd h (by simp)

theorem rule3_id (s : List Char) (h : hasAdj pLL s = false) : rule3 s = s := by
  apply applyRule_id_of_nomatch
  intro t hts
  cases h1 : try3 t with
  | none => rfl
  | some pr =>
    exfalso
    obtain ⟨u, hu⟩ := hts
    rw [← hu, hasAdj_append_right pLL u t (try3_some_hasLL t pr h1)] at h
    exact absurd h (by simp)

theorem rule2_id (s : List Char) (h : hasAdj pRR s = false) : rule2 s = s := by
  apply applyRule_id_of_nomatch
  intro t hts
  cases h1 : try2 t with
  | none => rfl
  | some pr =>
    exfalso
    obtain ⟨u, hu⟩ := hts
    rw [← hu, hasAdj_append_right pRR u t (try2_some_hasRR t pr h1)] at h
    exact absurd h (by simp)

theorem pLL_brackets :
    ∀ x y, pLL x y = true → (x = '[' ∨ x = ']') ∧ (y = '[' ∨ y = ']') := by
  intro x y h
  simp [pLL] at h
  exact ⟨Or.inl h.1, Or.inl h.2⟩

theorem pRR_brackets :
    ∀ x y, pRR x y = true → (x = '[' ∨ x = ']') ∧ (y = '[' ∨ y = ']') := by
  intro x y h
  simp [pRR] at h
  exact ⟨Or.inr h.1, Or.inr h.2⟩

/-- On a string without the substrings `[[` and `]]`, the four-step pipeline
collapses to rule 4 alone. -/
theorem normalizeL_eq_rule4 (s : List Char)
    (h1 : hasAdj pLL s = false) (h2 : hasAdj pRR s = false) :
    normalizeL s = rule4 s := by
  unfold normalizeL
  rw [rule1_id s h1, rule2_id s h2, rule3_id s h1]

theorem normalizeL_idem_of_noDouble (s : List Char)
    (h1 : hasAdj pLL s = false) (h2 : hasAdj pRR s = false) :
    normalizeL (normalizeL s) = normalizeL s := by
  have h1' : hasAdj pLL (rule4 s) = false :=
    applyRule4_pres pLL pLL_brackets s.length s (Nat.le_refl _) h1
  have h2' : hasAdj pRR (rule4 s) = false :=
    applyRule4_pres pRR pRR_brackets s.length s (Nat.le_refl _) h2
  rw [normalizeL_eq_rule4 s h1 h2, normalizeL_eq_rule4 _ h1' h2', rule4_idem]

/- ## A model of JavaScript `JSON.parse`

`JVal` is the result of a successful parse; numbers keep their raw token (the
demultiplexer never computes with them, only tests truthiness). -/

inductive JVal where
  | jnull : JVal
  | jbool : Bool → JVal
  | jnum : List Char → JVal
  | jstr : List Char → JVal
  | jarr : List JVal → JVal
  | jobj : List (List Char × JVal) → JVal

def jsonWs (c : Char) : Bool := c = ' ' || c = '\t' || c = '\n' || c = '\r'

def skipWs (s : List Char) : List Char := s.dropWhile jsonWs

def hexDig (c : Char) : Bool :=
  c.isDigit || ('a' ≤ c && c ≤ 'f') || ('A' ≤ c && c ≤ 'F')

def hexVal (c : Char) : Nat :=
  if c.isDigit then c.toNat - 48
  else if 'A' ≤ c ∧ c ≤ 'F' then c.toNat - 55
  else c.toNat - 87

/-- Body of a JSON string after the opening quote, with the escape sequences
accepted by `JSON.parse`. -/
def parseStrBody : Nat → List Char → Option (List Char × List Char)
  | 0, _ => none
  | fuel + 1, s =>
    match s with
    | [] => none
    | c :: t =>
      if c = '"' then some ([], t)
      else if c = '\\' then
        match t with
        | [] => none
        | e :: t' =>
          if e = '"' ∨ e = '\\' ∨ e = '/' then
            match parseStrBody fuel t' with
            | some (cs, r) => some (e :: cs, r)
            | none => none
          else if e = 'b' ∨ e = 'f' ∨ e = 'n' ∨ e = 'r' ∨ e = 't' then
            let d : Char :=
              if e = 'b' then Char.ofNat 8
              else if e = 'f' then Char.ofNat 12
              else if e = 'n' then '\n'
              else if e = 'r' then '\r'
              else '\t'
            match parseStrBody fuel t' with
            | some (cs, r) => some (d :: cs, r)
            | none => none
          else if e = 'u' then
            match t' with
            | h1 :: h2 :: h3 :: h4 :: t2 =>
              if hexDig h1 && hexDig h2 && hexDig h3 && hexDig h4 then
                match parseStrBody fuel t2 with
                | some (cs, r) =>
                  some (Char.ofNat
                    (hexVal h1 * 4096 + hexVal h2 * 256 + hexVal h3 * 16 + hexVal h4)
                    :: cs, r)
                | none => none
              else none
            | _ => none
          else none
      else if c.toNat < 32 then none
      else
        match parseStrBody fuel t with
        | some (cs, r) => some (c :: cs, r)
        | none => none

/-- Optional fraction part of a JSON number (raw characters). -/
def parseFrac : List Char → Option (List Char × List Char)
  | '.' :: t =>
    let ds := t.takeWhile Char.isDigit
    if ds = [] then none else some ('.' :: ds, t.dropWhile Char.isDigit)
  | s => some ([], s)

/-- Optional exponent part of a JSON number (raw characters). -/
def parseExp : List Char → Option (List Char × List Char)
  | [] => some ([], [])
  | c :: t =>
    if c = 'e' ∨ c = 'E' then
      let sgnRest : List Char × List Char :=
        match t with
        | '+' :: u => (['+'], u)
        | '-' :: u => (['-'], u)
        | _ => ([], t)
      let ds := sgnRest.2.takeWhile Char.isDigit
      if ds = [] then none
      else some (c :: sgnRest.1 ++ ds, sgnRest.2.dropWhile Char.isDigit)
    else some ([], c :: t)

/-- A JSON number token (strict grammar: no leading zeros, no bare dot). -/
def parseNum (s : List Char) : Option (JVal × List Char) :=
  let sgnRest : List Char × List Char :=
    match s with
    | '-' :: t => (['-'], t)
    | _ => ([], s)
  match sgnRest.2 with
  | [] => none
  | c :: t =>
    if c = '0' then
      match parseFrac t with
      | none => none
      | some (fr, r1) =>
        match parseExp r1 with
        | none => none
        | some (ex, r2) => some (JVal.jnum (sgnRest.1 ++ '0' :: fr ++ ex), r2)
    else if c.isDigit then
      let ds := (c :: t).takeWhile Char.isDigit
      let r0 := (c :: t).dropWhile Char.isDigit
      match parseFrac r0 with
      | none => none
      | some (fr, r1) =>
        match parseExp r1 with
        | none => none
        | some (ex, r2) => some (JVal.jnum (sgnRest.1 ++ ds ++ fr ++ ex), r2)
    else none

mutual

/-- One JSON value starting at the head of the input (whitespace already
skipped); returns the value and the rest of the input. -/
def parseVal : Nat → List Char → Option (JVal × List Char)
  | 0, _ => none
  | fuel + 1, s =>
    match s with
    | [] => none
    | c :: t =>
      if c = 'n' then
        match matchLit (("ull").data) t with
        | some r => some (JVal.jnull, r)
        | none => none
      else if c = 't' then
        match matchLit (("rue").data) t with
        | some r => some (JVal.jbool true, r)
        | none => none
      else if c = 'f' then
        match matchLit (("alse").data) t with
        | some r => some (JVal.jbool false, r)
        | none => none
      else if c = '"' then
        match parseStrBody (fuel + 1) t with
        | some (cs, r) => some (JVal.jstr cs, r)
        | none => none
      else if c = '[' then
        match skipWs t with
        | ']' :: r => some (JVal.jarr [], r)
        | t' =>
          match parseElems fuel t' with
          | some (es, r) => some (JVal.jarr es, r)
          | none => none
      else if c = '{' then
        match skipWs t with
        | '}' :: r => some (JVal.jobj [], r)
        | t' =>
          match parseMembers fuel t' with
          | some (fs, r) => some (JVal.jobj fs, r)
          | none => none
      else parseNum (c :: t)

/-- Comma-separated array elements up to the closing bracket. -/
def parseElems : Nat → List Char → Option (List JVal × List Char)
  | 0, _ => none
  | fuel + 1, s =>
    match parseVal fuel (skipWs s) with
    | none => none
    | some (v, r) =>
      match skipWs r with
      | ',' :: r' =>
        match parseElems fuel r' with
        | some (es, r2) => some (v :: es, r2)
        | none => none
      | ']' :: r' => some ([v], r')
      | _ => none

/-- Comma-separated object members up to the closing brace. -/
def parseMembers : Nat → List Char → Option (List (List Char × JVal) × List Char)
  | 0, _ => none
  | fuel + 1, s =>
    match skipWs s with
    | '"' :: t =>
      match parseStrBody (fuel + 1) t with
      | none => none
      | some (k, r) =>
        match skipWs r with
        | ':' :: r' =>
          match parseVal fuel (skipWs r') with
          | none => none
          | some (v, r2) =>
            match skipWs r2 with
            | ',' :: r3 =>
              match parseMembers fuel r3 with
              | some (fs, r4) => some ((k, v) :: fs, r4)
              | none => none
            | '}' :: r3 => some ([(k, v)], r3)
            | _ => none
        | _ => none
    | _ => none

end

/-- The model of `JSON.parse`: `none` means the call throws. -/
def jsParse (s : List Char) : Option JVal :=
  match parseVal (4 * s.length + 8) (skipWs s) with
  | some (v, r) => if skipWs r = [] then some v else none
  | none => none

/-- Truthiness of a parsed JSON value under JavaScript coercion. -/
def numIsZero (raw : List Char) : Bool :=
  ((raw.takeWhile (fun c => !(c = 'e' || c = 'E'))).filter Char.isDigit).all (· = '0')

def jsTruthy : JVal → Bool
  | JVal.jnull => false
  | JVal.jbool b => b
  | JVal.jnum raw => !(numIsZero raw)
  | JVal.jstr s => !s.isEmpty
  | JVal.jarr _ => true
  | JVal.jobj _ => true

/-- Property lookup on a parsed object: with duplicate keys the last wins,
as in `JSON.parse`. -/
def objGet (key : List Char) : List (List Char × JVal) → Option JVal
  | [] => none
  | kv :: rest =>
    match objGet key rest with
    | some r => some r
    | none => if kv.1 = key then some kv.2 else none

/-- JavaScript property access `v.key` on a parsed value: accessing a
property of `null` throws (`Except.error`), a missing property is
`undefined` (`Except.ok none`). -/
def getField (v : JVal) (key : List Char) : Except Unit (Option JVal) :=
  match v with
  | JVal.jnull => Except.error ()
  | JVal.jobj fs => Except.ok (objGet key fs)
  | _ => Except.ok none

example : jsParse (("[]").data) = some (JVal.jarr []) := rfl
example : jsParse (("null").data) = some JVal.jnull := rfl
example : jsParse ([]) = none := rfl
example : jsParse (("B").data) = none := rfl

/- ## JavaScript string operations used by the demultiplexer -/

/-- `String.prototype.split` with a non-empty separator: leftmost,
non-overlapping occurrences. -/
def splitGo (sep : List Char) : Nat → List Char → List Char → List (List Char)
  | 0, s, acc => [acc.reverse ++ s]
  | _ + 1, [], acc => [acc.reverse]
  | n + 1, c :: t, acc =>
    match matchLit sep (c :: t) with
    | some r => acc.reverse :: splitGo sep n r []
    | none => splitGo sep n t (c :: acc)

def splitOnL (sep s : List Char) : List (List Char) :=
  if sep = [] then [s] else splitGo sep (s.length + 1) s []

/-- `String.prototype.includes`. -/
def containsSub (s pat : List Char) : Bool :=
  match s with
  | [] => (matchLit pat ([] : List Char)).isSome
  | _ :: t => (matchLit pat s).isSome || containsSub t pat

/-- The whitespace class of `String.prototype.trim`. -/
def jsSpace (c : Char) : Bool :=
  c = ' ' || c = '\t' || c = '\n' || c = '\r' || c = '\x0b' || c = '\x0c' ||
  c = Char.ofNat 160 || c = Char.ofNat 65279 || c = Char.ofNat 8232 || c = Char.ofNat 8233

def trimJS (s : List Char) : List Char :=
  ((s.dropWhile jsSpace).reverse.dropWhile jsSpace).reverse

/-- `.replace(/^["']|["']$/g, '')`: strip one leading and one trailing
quote character. -/
def isQuoteCh (c : Char) : Bool := c = '"' || c = Char.ofNat 39

def stripQuotes (s : List Char) : List Char :=
  let s1 : List Char :=
    match s with
    | c :: t => if isQuoteCh c then t else c :: t
    | [] => []
  match s1.getLast? with
  | some c => if isQuoteCh c then s1.dropLast else s1
  | none => s1

/- ## The single-stream demultiplexer state machine

`processChunk` is the body of the `while` loop of `parseStreaming` in
`parse-streaming.ts` for one received chunk, split into its three stages. -/

def contextsKey : List Char := ("contexts").data
def contentKey : List Char := ("content").data
def placeholderQ : List Char := ("提出的问题：").data

structure StState where
  buffer : List Char
  sourcesProcessed : Bool
deriving DecidableEq

structure Relate where
  question : List Char
deriving DecidableEq

inductive SEv where
  | sources : JVal → SEv
  | markdown : List Char → SEv
  | relates : List Relate → SEv
  | error : Nat → SEv

/-- Result of the sources stage.  `halt` models the `continue` taken when
`JSON.parse` (or the `contexts` access on `null`) throws. -/
structure SrcResult where
  buffer : List Char
  flag : Bool
  events : List SEv
  halt : Bool

def procSources (buffer : List Char) (sourcesProcessed : Bool) : SrcResult :=
  if containsSub buffer LLM_SPLIT && !sourcesProcessed then
    let parts := splitOnL LLM_SPLIT buffer
    let sourcesStr := parts.headD []
    let rest := (parts.drop 1).headD []
    match jsParse sourcesStr with
    | none => ⟨buffer, sourcesProcessed, [], true⟩
    | some v =>
      match v with
      | JVal.jarr l => ⟨rest, true, [SEv.sources (JVal.jarr l)], false⟩
      | JVal.jnull => ⟨buffer, sourcesProcessed, [], true⟩
      | JVal.jobj fs =>
        match objGet contextsKey fs with
        | some cx =>
          if jsTruthy cx then ⟨rest, true, [SEv.sources cx], false⟩
          else ⟨rest, true, [], false⟩
        | none => ⟨rest, true, [], false⟩
      | _ => ⟨rest, true, [], false⟩
  else ⟨buffer, sourcesProcessed, [], false⟩

/-- The completeness heuristic for the related-questions payload. -/
def bracketComplete (relatesStr : List Char) : Bool :=
  !relatesStr.isEmpty &&
    (trimJS relatesStr).head? = some '[' && (trimJS relatesStr).getLast? = some ']'

/-- The hand-rolled related-questions extraction: strip brackets, split on
commas, trim and unquote, drop empties and the backend placeholder. -/
def relatesOf (relatesStr : List Char) : List Relate :=
  let inner := ((trimJS relatesStr).drop 1).dropLast
  let questions := (splitOnL [','] inner).map (fun q => stripQuotes (trimJS q))
  (questions.filter
    (fun q => !q.isEmpty && !(matchLit placeholderQ q).isSome)).map
    (fun q => ⟨q⟩)

structure RelResult where
  buffer : List Char
  events : List SEv

/-- The related-questions stage; `some` means the stage fired (the loop body
executes `continue`), `none` that the buffer has no second sentinel. -/
def procRelated (buffer : List Char) : Option RelResult :=
  if containsSub buffer RELATED_SPLIT then
    let parts := splitOnL RELATED_SPLIT buffer
    let content := parts.headD []
    let relatesStr := (parts.drop 1).headD []
    let evs : List SEv :=
      if content.isEmpty then [] else [SEv.markdown (normalizeL content)]
    if bracketComplete relatesStr then
      some ⟨[], evs ++ [SEv.relates (relatesOf relatesStr)]⟩
    else
      some ⟨buffer, evs⟩
  else none

/-- One complete newline-terminated record of the content stage. -/
def procLine (line : List Char) : List SEv :=
  if (trimJS line).isEmpty then []
  else
    match jsParse line with
    | none => [SEv.markdown (line ++ ['\n'])]
    | some v =>
      match getField v contentKey with
      | Except.error _ => [SEv.markdown (line ++ ['\n'])]
      | Except.ok none => []
      | Except.ok (some cval) =>
        if jsTruthy cval then
          match cval with
          | JVal.jstr cs => [SEv.markdown (normalizeL cs)]
          | _ => [SEv.markdown (line ++ ['\n'])]
        else []

structure LineResult where
  buffer : List Char
  events : List SEv

/-- The plain-content stage: split on newlines, hold back the final
(possibly incomplete) line, emit each complete line. -/
def procLines (buffer : List Char) : LineResult :=
  if buffer.isEmpty then ⟨buffer, []⟩
  else
    let lines := splitOnL ['\n'] buffer
    ⟨lines.getLastD [], (lines.dropLast.map procLine).flatten⟩

/-- One iteration of the receive loop on one decoded chunk. -/
def processChunk (st : StState) (chunk : List Char) : StState × List SEv :=
  let buf0 := st.buffer ++ chunk
  let r1 := procSources buf0 st.sourcesProcessed
  if r1.halt then (⟨r1.buffer, r1.flag⟩, r1.events)
  else
    match procRelated r1.buffer with
    | some r2 => (⟨r2.buffer, r1.flag⟩, r1.events ++ r2.events)
    | none =>
      let r3 := procLines r1.buffer
      (⟨r3.buffer, r1.flag⟩, r1.events ++ r3.events)

def runChunks (st : StState) : List (List Char) → List SEv
  | [] => []
  | c :: cs => (processChunk st c).2 ++ runChunks (processChunk st c).1 cs

def initState : StState := ⟨[], false⟩

/-- The callback trace of a whole session body on a chunk sequence. -/
def eventsOf (chunks : List String) : List SEv :=
  runChunks initState (chunks.map String.data)

def stateAfter (st : StState) : List (List Char) → StState
  | [] => st
  | c :: cs => stateAfter (processChunk st c).1 cs

/- ## Session wrappers -/

/-- `Response.ok`: status in the inclusive range 200–299. -/
def okStatus (n : Nat) : Bool := 200 ≤ n && n ≤ 299

/-- One single-stream session: the HTTP status of the `/query` response, its
body as a chunk sequence (`none` models a missing readable body), and an
optional abort position — `some k` means the abort fires at the `k`-th
`reader.read()`, which then rejects with `AbortError`. -/
structure SingleInput where
  status : Nat
  body : Option (List String)
  abortAt : Option Nat

/-- The full callback trace of the single-stream `parseStreaming`:
a non-ok status reports the status and stops; a missing reader throws and is
reported as 500; an `AbortError` is swallowed with no further callbacks. -/
def singleRun (i : SingleInput) : List SEv :=
  if !okStatus i.status then [SEv.error i.status]
  else
    match i.body with
    | none => [SEv.error 500]
    | some cs =>
      match i.abortAt with
      | none => eventsOf cs
      | some k => eventsOf (cs.take k)

/-- Extract the markdown payload of an event (empty for other events). -/
def mdText : SEv → List Char
  | SEv.markdown s => s
  | _ => []

/- ## The three-request variant (`/search`, `/generate`, `/related`) -/

structure MRelate where
  question : JVal

inductive MEv where
  | sources : JVal → MEv
  | mdReduce : List Char → MEv
  | relates : List MRelate → MEv
  | error : Nat → MEv

/-- One three-request session: statuses and payloads of the three calls.
`searchJson`/`relatedJson` are the parsed response bodies (`none` models a
body that is not valid JSON, whose `.json()` rejects). -/
structure MultiInput where
  searchStatus : Nat
  searchJson : Option JVal
  generateStatus : Nat
  genBody : Option (List String)
  relatedStatus : Nat
  relatedJson : Option JVal

/-- The callback trace of the three-request `parseStreaming`.  Each received
generate-chunk is delivered as `onMarkdown(prev => pipeline(prev + chunk))`,
recorded as `MEv.mdReduce chunk`.  A non-array `/related` body makes
`questions.map` throw, reported as 500. -/
def multiRun (m : MultiInput) : List MEv :=
  if !okStatus m.searchStatus then [MEv.error m.searchStatus]
  else
    match m.searchJson with
    | none => [MEv.error 500]
    | some ctxs =>
      if !okStatus m.generateStatus then
        [MEv.sources ctxs, MEv.error m.generateStatus]
      else
        match m.genBody with
        | none => [MEv.sources ctxs, MEv.error 500]
        | some cs =>
          let e2 := MEv.sources ctxs :: cs.map (fun c => MEv.mdReduce c.data)
          if !okStatus m.relatedStatus then e2 ++ [MEv.error m.relatedStatus]
          else
            match m.relatedJson with
            | none => e2 ++ [MEv.error 500]
            | some (JVal.jarr qs) =>
              e2 ++ [MEv.relates (qs.map (fun q => ⟨q⟩))]
            | some _ => e2 ++ [MEv.error 500]

/-- The successive values held by a consumer that starts from the empty
string and applies each delivered `onMarkdown` reducer in order. -/
def mdValuesAux : List Char → List MEv → List (List Char)
  | _, [] => []
  | prev, MEv.mdReduce c :: rest =>
    normalizeFullL (prev ++ c) :: mdValuesAux (normalizeFullL (prev ++ c)) rest
  | prev, _ :: rest => mdValuesAux prev rest

def mdValues (evs : List MEv) : List (List Char) := mdValuesAux [] evs

/-- The chunks carried by the reducer-form markdown events, in order. -/
def mdChunksOf (evs : List MEv) : List (List Char) :=
  evs.filterMap (fun e => match e with | MEv.mdReduce c => some c | _ => none)

/-- The reference recurrence: each value is the pipeline applied to the
previous value concatenated with the newest chunk. -/
def valueSeq : List Char → List (List Char) → List (List Char)
  | _, [] => []
  | prev, c :: cs =>
    normalizeFullL (prev ++ c) :: valueSeq (normalizeFullL (prev ++ c)) cs

/- sanity checks of the model on the concrete claim scenarios -/

example : eventsOf [("\x7b\"content\":\"A\"\x7d\n__RELATED_QUESTIONS__[\"q1\"]")] =
    [SEv.markdown (("\x7b\"content\":\"A\"\x7d\n").data),
     SEv.relates [⟨("q1").data⟩]] := rfl

example : eventsOf [("\x7b\"content\":\"A\"\x7d\n"), ("__RELATED_QUESTIONS__[\"q1\"]")] =
    [SEv.markdown (("A").data), SEv.relates [⟨("q1").data⟩]] := rfl

example : eventsOf [("[\x7b\"id\":1\x7d]__LLM_RESPONSE__")] =
    [SEv.sources (JVal.jarr [JVal.jobj [(("id").data, JVal.jnum (("1").data))]])] := rfl

example :
    (processChunk initState (("[]__LLM_RESPONSE__B__LLM_RESPONSE__C").data)).1.buffer
      = ("B").data := rfl

example : eventsOf [("__RELATED_QUESTIONS__[\"q1\",\"提出的问题：x\",\"q2\"]")] =
    [SEv.relates [⟨("q1").data⟩, ⟨("q2").data⟩]] := rfl

/- ## Shape lemmas for the stage events -/

theorem procSources_events_shape (buffer : List Char) (flag : Bool) :
    (procSources buffer flag).events = [] ∨
      ∃ v, (procSources buffer flag).events = [SEv.sources v] := by
  simp only [procSources]
  repeat' split
  all_goals first
    | exact Or.inl rfl
    | exact Or.inr ⟨_, rfl⟩

theorem procRelated_events_shape (buffer : List Char) (r : RelResult)
    (h : procRelated buffer = some r) :
    ∀ e ∈ r.events, (∃ s, e = SEv.markdown s) ∨
      (∃ l, e = SEv.relates l ∧ bracketComplete
        (((splitOnL RELATED_SPLIT buffer).drop 1).headD []) = true) := by
  intro e he
  simp only [procRelated] at h
  split at h
  · split at h
    next hbc =>
      have hr := Option.some.inj h
      subst hr
      rcases List.mem_append.mp he with h1 | h1
      · split at h1
        · simp at h1
        · left; exact ⟨_, List.mem_singleton.mp h1⟩
      · right
        exact ⟨_, List.mem_singleton.mp h1, hbc⟩
    next _ =>
      have hr := Option.some.inj h
      subst hr
      left
      split at he
      · simp at he
      · exact ⟨_, List.mem_singleton.mp he⟩
  · exact absurd h (by simp)

theorem procLine_cases (line : List Char) :
    procLine line = [] ∨ ∃ s, procLine line = [SEv.markdown s] := by
  simp only [procLine]
  repeat' split
  all_goals first
    | exact Or.inl rfl
    | exact Or.inr ⟨_, rfl⟩

theorem procLines_events_shape (buffer : List Char) :
    ∀ e ∈ (procLines buffer).events, ∃ s, e = SEv.markdown s := by
  intro e he
  simp only [procLines] at he
  split at he
  · simp at he
  · simp only [List.mem_flatten, List.mem_map] at he
    obtain ⟨l, ⟨line, _, hl⟩, hel⟩ := he
    subst hl
    rcases procLine_cases line with h | ⟨s, h⟩
    · rw [h] at hel; simp at hel
    · rw [h] at hel
      exact ⟨s, List.mem_singleton.mp hel⟩

/-- Every event of one loop iteration is a sources, markdown or relates
callback; relates events moreover require the bracket check to have passed
on the stage-two buffer. -/
theorem processChunk_events_shape (st : StState) (c : List Char) :
    ∀ e ∈ (processChunk st c).2,
      (∃ v, e = SEv.sources v) ∨ (∃ s, e = SEv.markdown s) ∨
        (∃ l, e = SEv.relates l) := by
  intro e he
  simp only [processChunk] at he
  split at he
  · rcases procSources_events_shape (st.buffer ++ c) st.sourcesProcessed with h | ⟨v, h⟩
    · rw [h] at he; simp at he
    · rw [h] at he
      exact Or.inl ⟨v, List.mem_singleton.mp he⟩
  · split at he
    next r2 hr2 =>
      rcases List.mem_append.mp he with h1 | h1
      · rcases procSources_events_shape (st.buffer ++ c) st.sourcesProcessed with h | ⟨v, h⟩
        · rw [h] at h1; simp at h1
        · rw [h] at h1
          exact Or.inl ⟨v, List.mem_singleton.mp h1⟩
      · rcases procRelated_events_shape _ r2 hr2 e h1 with ⟨s, hs⟩ | ⟨l, hl, _⟩
        · exact Or.inr (Or.inl ⟨s, hs⟩)
        · exact Or.inr (Or.inr ⟨l, hl⟩)
    next =>
      rcases List.mem_append.mp he with h1 | h1
      · rcases procSources_events_shape (st.buffer ++ c) st.sourcesProcessed with h | ⟨v, h⟩
        · rw [h] at h1; simp at h1
        · rw [h] at h1
          exact Or.inl ⟨v, List.mem_singleton.mp h1⟩
      · exact Or.inr (Or.inl (procLines_events_shape _ e h1))

theorem runChunks_no_error (st : StState) (chunks : List (List Char)) :
    ∀ n, SEv.error n ∉ runChunks st chunks := by
  induction chunks generalizing st with
  | nil => intro n h; simp [runChunks] at h
  | cons c cs ih =>
    intro n h
    rcases List.mem_append.mp h with h1 | h1
    · rcases processChunk_events_shape st c _ h1 with ⟨v, hv⟩ | ⟨s, hs⟩ | ⟨l, hl⟩ <;>
        simp_all
    · exact ih (processChunk st c).1 n h1

/- ## Sentinel bookkeeping lemmas -/

/-- Whether the related-questions stage would fire and pass its bracket
check during the iteration that consumes `chunk` in state `st`. -/
def relCheckAt (st : StState) (chunk : List Char) : Bool :=
  let r1 := procSources (st.buffer ++ chunk) st.sourcesProcessed
  !r1.halt && containsSub r1.buffer RELATED_SPLIT &&
    bracketComplete (((splitOnL RELATED_SPLIT r1.buffer).drop 1).headD [])

/-- Whether the second sentinel is visible to the related-questions stage
during the iteration that consumes `chunk` in state `st`. -/
def relSeenAt (st : StState) (chunk : List Char) : Bool :=
  let r1 := procSources (st.buffer ++ chunk) st.sourcesProcessed
  !r1.halt && containsSub r1.buffer RELATED_SPLIT

theorem relates_only_if_check (st : StState) (c : List Char) (l : List Relate)
    (h : SEv.relates l ∈ (processChunk st c).2) : relCheckAt st c = true := by
  simp only [processChunk] at h
  split at h
  next hhalt =>
    exfalso
    rcases procSources_events_shape (st.buffer ++ c) st.sourcesProcessed with hs | ⟨v, hs⟩ <;>
      (rw [hs] at h; simp at h)
  next hhalt =>
    split at h
    next r2 hr2 =>
      rcases List.mem_append.mp h with h1 | h1
      · exfalso
        rcases procSources_events_shape (st.buffer ++ c) st.sourcesProcessed with hs | ⟨v, hs⟩ <;>
          (rw [hs] at h1; simp at h1)
      · rcases procRelated_events_shape _ r2 hr2 _ h1 with ⟨s, hs⟩ | ⟨l', _, hbc⟩
        · exact absurd hs (by simp)
        · have hcont : containsSub
              (procSources (st.buffer ++ c) st.sourcesProcessed).buffer
              RELATED_SPLIT = true := by
            by_contra hc
            simp only [procRelated] at hr2
            rw [if_neg ?_] at hr2
            · exact absurd hr2 (by simp)
            · simpa using hc
          simp only [relCheckAt, Bool.and_eq_true]
          refine ⟨⟨?_, hcont⟩, hbc⟩
          simpa using hhalt
    next =>
      rcases List.mem_append.mp h with h1 | h1
      · exfalso
        rcases procSources_events_shape (st.buffer ++ c) st.sourcesProcessed with hs | ⟨v, hs⟩ <;>
          (rw [hs] at h1; simp at h1)
      · obtain ⟨s, hs⟩ := procLines_events_shape _ _ h1
        exact absurd hs (by simp)

theorem runChunks_no_relates (st : StState) (chunks : List (List Char))
    (hfail : ∀ i (hi : i < chunks.length),
      relCheckAt (stateAfter st (chunks.take i)) (chunks.get ⟨i, hi⟩) = false) :
    ∀ l, SEv.relates l ∉ runChunks st chunks := by
  induction chunks generalizing st with
  | nil => intro l h; simp [runChunks] at h
  | cons c cs ih =>
    intro l h
    rcases List.mem_append.mp h with h1 | h1
    · have := relates_only_if_check st c l h1
      have h0 := hfail 0 (by simp)
      simp only [List.take_zero, stateAfter, List.get] at h0
      rw [this] at h0
      exact absurd h0 (by simp)
    · refine ih (processChunk st c).1 ?_ l h1
      intro i hi
      have := hfail (i + 1) (by simpa using Nat.succ_lt_succ hi)
      simpa [stateAfter, List.take_succ_cons, List.get] using this

/-- Once the sources flag is set, no later iteration clears it or emits a
sources callback again. -/
theorem sourcesProcessed_monotone (st : StState) (c : List Char)
    (h : st.sourcesProcessed = true) :
    (processChunk st c).1.sourcesProcessed = true ∧
      ∀ w, SEv.sources w ∉ (processChunk st c).2 := by
  have hsrc : procSources (st.buffer ++ c) st.sourcesProcessed =
      ⟨st.buffer ++ c, st.sourcesProcessed, [], false⟩ := by
    simp only [procSources, h]
    simp
  constructor
  · simp only [processChunk, hsrc]
    rw [if_neg (by simp)]
    split <;> exact h
  · intro w hw
    simp only [processChunk, hsrc] at hw
    rw [if_neg (by simp)] at hw
    split at hw
    next r2 hr2 =>
      simp only [List.nil_append] at hw
      rcases procRelated_events_shape _ r2 hr2 _ hw with ⟨s, hs⟩ | ⟨l, hl, _⟩ <;>
        simp_all
    next =>
      simp only [List.nil_append] at hw
      obtain ⟨s, hs⟩ := procLines_events_shape _ _ hw
      simp_all

/- ## `split` reassembly: the parts joined with the separator give back the
original string -/

def joinWith (sep : List Char) : List (List Char) → List Char
  | [] => []
  | [a] => a
  | a :: b :: rest => a ++ sep ++ joinWith sep (b :: rest)

theorem splitGo_ne_nil (sep : List Char) :
    ∀ n s acc, splitGo sep n s acc ≠ [] := by
  intro n
  induction n with
  | zero => intro s acc; simp [splitGo]
  | succ m ih =>
    intro s acc
    cases s with
    | nil => simp [splitGo]
    | cons c t =>
      simp only [splitGo]
      split
      · simp
      · exact ih t (c :: acc)

theorem splitGo_join (sep : List Char) :
    ∀ n s acc, joinWith sep (splitGo sep n s acc) = acc.reverse ++ s := by
  intro n
  induction n with
  | zero => intro s acc; rfl
  | succ m ih =>
    intro s acc
    cases s with
    | nil => simp [splitGo, joinWith]
    | cons c t =>
      simp only [splitGo]
      cases hm : matchLit sep (c :: t) with
      | some r =>
        obtain ⟨b, bs, hsg⟩ : ∃ b bs, splitGo sep m r [] = b :: bs := by
          cases hsg : splitGo sep m r [] with
          | nil => exact absurd hsg (splitGo_ne_nil sep m r [])
          | cons b bs => exact ⟨b, bs, rfl⟩
        show joinWith sep (acc.reverse :: splitGo sep m r []) = acc.reverse ++ c :: t
        rw [hsg]
        simp only [joinWith]
        rw [← hsg, ih r []]
        simp only [List.reverse_nil, List.nil_append]
        rw [matchLit_some sep (c :: t) r hm, List.append_assoc]
      | none =>
        rw [ih t (c :: acc)]
        simp

theorem joinWith_splitOnL (sep s : List Char) (hsep : sep ≠ []) :
    joinWith sep (splitOnL sep s) = s := by
  simp only [splitOnL, if_neg hsep]
  simpa using splitGo_join sep (s.length + 1) s []

/- ## Extraction lemmas for the reducer-form markdown events -/

theorem mdValuesAux_noMd : ∀ (T : List MEv) (prev : List Char),
    (∀ e ∈ T, ∀ c, e ≠ MEv.mdReduce c) → mdValuesAux prev T = [] := by
  intro T
  induction T with
  | nil => intro prev _; rfl
  | cons e rest ih =>
    intro prev h
    have hrest : ∀ e' ∈ rest, ∀ c, e' ≠ MEv.mdReduce c :=
      fun e' he' c => h e' (by simp [he']) c
    cases e with
    | mdReduce c => exact absurd rfl (h (MEv.mdReduce c) (by simp) c)
    | sources v => simpa [mdValuesAux] using ih prev hrest
    | relates l => simpa [mdValuesAux] using ih prev hrest
    | error n => simpa [mdValuesAux] using ih prev hrest

theorem mdValuesAux_map_append (T : List MEv)
    (hT : ∀ e ∈ T, ∀ c, e ≠ MEv.mdReduce c) :
    ∀ (cs : List (List Char)) (prev : List Char),
      mdValuesAux prev (cs.map MEv.mdReduce ++ T) = valueSeq prev cs := by
  intro cs
  induction cs with
  | nil => intro prev; simpa [valueSeq] using mdValuesAux_noMd T prev hT
  | cons c cs ih =>
    intro prev
    simp only [List.map_cons, List.cons_append, mdValuesAux, valueSeq]
    exact congrArg (normalizeFullL (prev ++ c) :: ·) (ih (normalizeFullL (prev ++ c)))

theorem filterMap_mdReduce (cs : List (List Char)) :
    List.filterMap (fun e => match e with | MEv.mdReduce c => some c | _ => none)
      (cs.map MEv.mdReduce) = cs := by
  induction cs with
  | nil => rfl
  | cons c cs ih => simp [List.filterMap_cons, ih]

theorem filterMap_noMd (T : List MEv)
    (hT : ∀ e ∈ T, ∀ c, e ≠ MEv.mdReduce c) :
    List.filterMap (fun e => match e with | MEv.mdReduce c => some c | _ => none)
      T = [] := by
  induction T with
  | nil => rfl
  | cons e rest ih =>
    have hrest : ∀ e' ∈ rest, ∀ c, e' ≠ MEv.mdReduce c :=
      fun e' he' c => hT e' (by simp [he']) c
    cases e with
    | mdReduce c => exact absurd rfl (hT (MEv.mdReduce c) (by simp) c)
    | sources v => simp [List.filterMap_cons, ih hrest]
    | relates l => simp [List.filterMap_cons, ih hrest]
    | error n => simp [List.filterMap_cons, ih hrest]

/-- Under successful search and generate stages, the three-request runner
emits exactly one reducer event per received chunk, in order, followed only
by non-markdown events. -/
theorem multiRun_decompose (m : MultiInput) (ctxs : JVal) (cs : List String)
    (h1 : okStatus m.searchStatus = true) (h2 : m.searchJson = some ctxs)
    (h3 : okStatus m.generateStatus = true) (h4 : m.genBody = some cs) :
    ∃ T, multiRun m =
        MEv.sources ctxs :: ((cs.map String.data).map MEv.mdReduce ++ T) ∧
      ∀ e ∈ T, ∀ c, e ≠ MEv.mdReduce c := by
  have hmap : cs.map (fun c => MEv.mdReduce c.data) =
      (cs.map String.data).map MEv.mdReduce := by
    rw [List.map_map]; rfl
  by_cases h5 : okStatus m.relatedStatus = true
  · cases h6 : m.relatedJson with
    | none =>
      refine ⟨[MEv.error 500], ?_, ?_⟩
      · simp [multiRun, h1, h2, h3, h4, h5, h6, hmap]
      · intro e he c; simp at he; subst he; simp
    | some v =>
      cases v with
      | jarr qs =>
        refine ⟨[MEv.relates (qs.map (fun q => ⟨q⟩))], ?_, ?_⟩
        · simp [multiRun, h1, h2, h3, h4, h5, h6, hmap]
        · intro e he c; simp at he; subst he; simp
      | jnull =>
        refine ⟨[MEv.error 500], ?_, ?_⟩
        · simp [multiRun, h1, h2, h3, h4, h5, h6, hmap]
        · intro e he c; simp at he; subst he; simp
      | jbool b =>
        refine ⟨[MEv.error 500], ?_, ?_⟩
        · simp [multiRun, h1, h2, h3, h4, h5, h6, hmap]
        · intro e he c; simp at he; subst he; simp
      | jnum raw =>
        refine ⟨[MEv.error 500], ?_, ?_⟩
        · simp [multiRun, h1, h2, h3, h4, h5, h6, hmap]
        · intro e he c; simp at he; subst he; simp
      | jstr s =>
        refine ⟨[MEv.error 500], ?_, ?_⟩
        · simp [multiRun, h1, h2, h3, h4, h5, h6, hmap]
        · intro e he c; simp at he; subst he; simp
      | jobj fs =>
        refine ⟨[MEv.error 500], ?_, ?_⟩
        · simp [multiRun, h1, h2, h3, h4, h5, h6, hmap]
        · intro e he c; simp at he; subst he; simp
  · refine ⟨[MEv.error m.relatedStatus], ?_, ?_⟩
    · simp [multiRun, h1, h2, h3, h4, h5, hmap]
    · intro e he c; simp at he; subst he; simp

/- ## The claims -/

/-- C1: the spec asserts chunk-boundary independence — for every complete
input stream and every chunking, the callback sequence must be identical.
The code violates it: delivering `'{"content":"A"}\n__RELATED_QUESTIONS__["q1"]'`
as one chunk emits the raw JSON line (the related stage normalizes the whole
pending content verbatim), while splitting it after the newline emits the
parsed `content` field `"A"`.  The two traces differ, refuting the claimed
independence on this input; the spec's stated intent makes this a code bug. -/
theorem c1_chunk_boundary_dependence :
    (("\x7b\"content\":\"A\"\x7d\n") ++ ("__RELATED_QUESTIONS__[\"q1\"]") : String) =
      ("\x7b\"content\":\"A\"\x7d\n__RELATED_QUESTIONS__[\"q1\"]") ∧
    eventsOf [("\x7b\"content\":\"A\"\x7d\n__RELATED_QUESTIONS__[\"q1\"]")] ≠
      eventsOf [("\x7b\"content\":\"A\"\x7d\n"), ("__RELATED_QUESTIONS__[\"q1\"]")] := by
  refine ⟨by decide, ?_⟩
  intro h
  exact absurd (congrArg (List.map mdText) h) (by decide)

/-- C2 (counterexample): the pipeline is not idempotent on every string.
On `"citation:3]]]"` rule 2 rewrites the first `]]` and thereby creates a
fresh `]]` adjacency out of the trailing bracket, which a second pass
rewrites again. -/
theorem c2_counterexample :
    citationNormalize (citationNormalize ("citation:3]]]")) ≠
      citationNormalize ("citation:3]]]") := by decide

/-- C2 (amended): the citation-normalization pipeline is idempotent on every
input that contains neither the two-character substring `[[` nor `]]` (the
doubled-bracket shapes the early rules rewrite); on such inputs rules 1–3
are the identity, rule 4 is idempotent, and rule 4 never creates a doubled
bracket. -/
theorem c2_pipeline_idempotent_noDoubles (s : String)
    (h1 : hasAdj pLL s.data = false) (h2 : hasAdj pRR s.data = false) :
    citationNormalize (citationNormalize s) = citationNormalize s := by
  have h := normalizeL_idem_of_noDouble s.data h1 h2
  simp only [citationNormalize]
  exact congrArg String.mk h

theorem c2_witness :
    hasAdj pLL (("a [citation:2] b").data) = false ∧
    hasAdj pRR (("a [citation:2] b").data) = false ∧
    citationNormalize (citationNormalize ("a [citation:2] b")) =
      citationNormalize ("a [citation:2] b") :=
  ⟨by decide, by decide,
    c2_pipeline_idempotent_noDoubles ("a [citation:2] b") (by decide) (by decide)⟩

/-- C3 (counterexample): when the first sentinel occurs twice in the buffer,
the destructuring `[sourcesStr, rest] = buffer.split(LLM_SPLIT)` keeps only
the part between the first and second occurrence, not the whole text to the
right of the first sentinel.  On `'[]__LLM_RESPONSE__B__LLM_RESPONSE__C'`
the left part parses as JSON, yet the new buffer is `"B"` while the text to
the right of the sentinel is `"B__LLM_RESPONSE__C"`. -/
theorem c3_counterexample :
    jsParse ((splitOnL LLM_SPLIT
        ((("[]__LLM_RESPONSE__B__LLM_RESPONSE__C").data))).headD [])
      = some (JVal.jarr []) ∧
    (processChunk initState (("[]__LLM_RESPONSE__B__LLM_RESPONSE__C").data)).1.buffer
      = ("B").data ∧
    joinWith LLM_SPLIT ((splitOnL LLM_SPLIT
        ((("[]__LLM_RESPONSE__B__LLM_RESPONSE__C").data))).drop 1)
      = ("B__LLM_RESPONSE__C").data ∧
    ("B").data ≠ ("B__LLM_RESPONSE__C").data :=
  ⟨rfl, rfl, by decide, by decide⟩

/-- C3 (amended): whenever sources are unresolved and the buffer contains the
first sentinel, with the text before its first occurrence parsing as a JSON
array or JSON object, the sources stage sets the resolved flag, does not
`continue`, emits `onSources` with the array itself (resp. with the object's
truthy `contexts` member, and nothing otherwise), and replaces the buffer
with the split part between the first and second sentinel occurrences (the
parts joined with the sentinel reassemble the buffer); once the flag is set,
no later iteration clears it or emits a sources callback again. -/
theorem c3_sources_stage (st : StState) (chunk : List Char) (v : JVal)
    (hflag : st.sourcesProcessed = false)
    (hcont : containsSub (st.buffer ++ chunk) LLM_SPLIT = true)
    (hparse : jsParse ((splitOnL LLM_SPLIT (st.buffer ++ chunk)).headD []) = some v)
    (hshape : (∃ l, v = JVal.jarr l) ∨ ∃ fs, v = JVal.jobj fs) :
    (procSources (st.buffer ++ chunk) st.sourcesProcessed).flag = true ∧
    (procSources (st.buffer ++ chunk) st.sourcesProcessed).halt = false ∧
    (procSources (st.buffer ++ chunk) st.sourcesProcessed).buffer =
      ((splitOnL LLM_SPLIT (st.buffer ++ chunk)).drop 1).headD [] ∧
    (∀ l, v = JVal.jarr l →
      (procSources (st.buffer ++ chunk) st.sourcesProcessed).events =
        [SEv.sources v]) ∧
    (∀ fs, v = JVal.jobj fs →
      (procSources (st.buffer ++ chunk) st.sourcesProcessed).events =
        (match objGet contextsKey fs with
         | some cx => if jsTruthy cx then [SEv.sources cx] else []
         | none => [])) ∧
    joinWith LLM_SPLIT (splitOnL LLM_SPLIT (st.buffer ++ chunk)) =
      st.buffer ++ chunk ∧
    (∀ st' c', st'.sourcesProcessed = true →
      (processChunk st' c').1.sourcesProcessed = true ∧
      ∀ w, SEv.sources w ∉ (processChunk st' c').2) := by
  have hcond : (containsSub (st.buffer ++ chunk) LLM_SPLIT &&
      !st.sourcesProcessed) = true := by
    rw [hflag, hcont]; rfl
  rcases hshape with ⟨l, hv⟩ | ⟨fs, hv⟩
  · subst hv
    have hform : procSources (st.buffer ++ chunk) st.sourcesProcessed =
        ⟨((splitOnL LLM_SPLIT (st.buffer ++ chunk)).drop 1).headD [], true,
          [SEv.sources (JVal.jarr l)], false⟩ := by
      simp only [procSources, hcond, if_true, hparse]
    refine ⟨by rw [hform], by rw [hform], by rw [hform], ?_, ?_,
      joinWith_splitOnL _ _ (by decide),
      fun st' c' h => sourcesProcessed_monotone st' c' h⟩
    · intro l' _
      rw [hform]
    · intro fs hfs
      exact absurd hfs (by simp)
  · subst hv
    cases hog : objGet contextsKey fs with
    | some cx =>
      by_cases htr : jsTruthy cx = true
      · have hform : procSources (st.buffer ++ chunk) st.sourcesProcessed =
            ⟨((splitOnL LLM_SPLIT (st.buffer ++ chunk)).drop 1).headD [], true,
              [SEv.sources cx], false⟩ := by
          simp only [procSources, hcond, if_true, hparse, hog, htr]
        refine ⟨by rw [hform], by rw [hform], by rw [hform], ?_, ?_,
          joinWith_splitOnL _ _ (by decide),
          fun st' c' h => sourcesProcessed_monotone st' c' h⟩
        · intro l' hl'
          exact absurd hl' (by simp)
        · intro fs' hfs'
          have hfs : fs' = fs := by
            have := hfs'
            injection this with h'
            exact h'.symm
          subst hfs
          rw [hform, hog]
          simp [htr]
      · have hform : procSources (st.buffer ++ chunk) st.sourcesProcessed =
            ⟨((splitOnL LLM_SPLIT (st.buffer ++ chunk)).drop 1).headD [], true,
              [], false⟩ := by
          simp only [procSources, hcond, if_true, hparse, hog, htr]
          simp [htr]
        refine ⟨by rw [hform], by rw [hform], by rw [hform], ?_, ?_,
          joinWith_splitOnL _ _ (by decide),
          fun st' c' h => sourcesProcessed_monotone st' c' h⟩
        · intro l' hl'
          exact absurd hl' (by simp)
        · intro fs' hfs'
          have hfs : fs' = fs := by
            injection hfs' with h'
            exact h'.symm
          subst hfs
          rw [hform, hog]
          simp [htr]
    | none =>
      have hform : procSources (st.buffer ++ chunk) st.sourcesProcessed =
          ⟨((splitOnL LLM_SPLIT (st.buffer ++ chunk)).drop 1).headD [], true,
            [], false⟩ := by
        simp only [procSources, hcond, if_true, hparse, hog]
      refine ⟨by rw [hform], by rw [hform], by rw [hform], ?_, ?_,
        joinWith_splitOnL _ _ (by decide),
        fun st' c' h => sourcesProcessed_monotone st' c' h⟩
      · intro l' hl'
        exact absurd hl' (by simp)
      · intro fs' hfs'
        have hfs : fs' = fs := by
          injection hfs' with h'
          exact h'.symm
        subst hfs
        rw [hform, hog]

theorem c3_witness :
    initState.sourcesProcessed = false ∧
    containsSub (initState.buffer ++ (("[\"s\"]__LLM_RESPONSE__rest").data))
      LLM_SPLIT = true ∧
    (procSources (initState.buffer ++ (("[\"s\"]__LLM_RESPONSE__rest").data))
      initState.sourcesProcessed).flag = true ∧
    (procSources (initState.buffer ++ (("[\"s\"]__LLM_RESPONSE__rest").data))
      initState.sourcesProcessed).events =
        [SEv.sources (JVal.jarr [JVal.jstr (("s").data)])] := by
  have h := c3_sources_stage initState (("[\"s\"]__LLM_RESPONSE__rest").data)
    (JVal.jarr [JVal.jstr (("s").data)]) rfl (by decide) rfl
    (Or.inl ⟨_, rfl⟩)
  exact ⟨rfl, by decide, h.1, h.2.2.2.1 _ rfl⟩

/-- C4 (counterexample): in the three-request variant the reducer is
`prev => pipeline(prev + chunk)`, where `prev` is the previously *emitted*
(already normalized) text, not the raw received text.  With the chunks
`"[[citation:3]"` and `"]"` the second delivered value is
`"[citation](3)]"`, but the pipeline applied to the entire received text
`"[[citation:3]]"` gives `"[citation](3)"` — so the claim as stated fails. -/
theorem c4_counterexample :
    mdValues (multiRun ⟨200, some (JVal.jarr []), 200,
        some [("[[citation:3]"), ("]")], 200, some (JVal.jarr [])⟩) =
      [("[citation](3)").data, ("[citation](3)]").data] ∧
    normalizeFullL (((("[[citation:3]") ++ ("]")) : String).data) =
      ("[citation](3)").data ∧
    (("[citation](3)]").data : List Char) ≠ ("[citation](3)").data :=
  ⟨rfl, rfl, by decide⟩

/-- C4 (amended): in the three-request variant with successful search and
generate stages, the reducer-form markdown events carry exactly the received
chunks in order, and the successive consumer values satisfy the recurrence
`v_n = pipeline(v_(n-1) ++ chunk_n)` starting from the empty string: each
increment re-applies the pipeline to the previously delivered (normalized)
accumulation plus the newest fragment, not to the newest fragment alone. -/
theorem c4_cumulative_markdown (m : MultiInput) (ctxs : JVal) (cs : List String)
    (h1 : okStatus m.searchStatus = true) (h2 : m.searchJson = some ctxs)
    (h3 : okStatus m.generateStatus = true) (h4 : m.genBody = some cs) :
    mdChunksOf (multiRun m) = cs.map String.data ∧
    mdValues (multiRun m) = valueSeq [] (cs.map String.data) := by
  obtain ⟨T, hrun, hT⟩ := multiRun_decompose m ctxs cs h1 h2 h3 h4
  constructor
  · rw [hrun]
    simp only [mdChunksOf, List.filterMap_cons, List.filterMap_append]
    rw [filterMap_mdReduce (cs.map String.data), filterMap_noMd T hT]
    simp
  · rw [hrun]
    simp only [mdValues, mdValuesAux]
    exact mdValuesAux_map_append T hT (cs.map String.data) []

theorem c4_witness :
    okStatus 200 = true ∧
    mdChunksOf (multiRun ⟨200, some (JVal.jarr []), 200,
        some [("ab"), ("cd")], 200, some (JVal.jarr [])⟩) =
      [("ab").data, ("cd").data] ∧
    mdValues (multiRun ⟨200, some (JVal.jarr []), 200,
        some [("ab"), ("cd")], 200, some (JVal.jarr [])⟩) =
      valueSeq [] [("ab").data, ("cd").data] := by
  have h := c4_cumulative_markdown
    ⟨200, some (JVal.jarr []), 200, some [("ab"), ("cd")], 200, some (JVal.jarr [])⟩
    (JVal.jarr []) [("ab"), ("cd")] (by decide) rfl (by decide) rfl
  exact ⟨by decide, h.1, h.2⟩

/-- C5: a non-2xx status on the initial request (the `/query` call of the
single-stream variant; the `/search` call of the three-request variant)
produces exactly an `onError` with that status and no other callback, and
the function returns normally. -/
theorem c5_non2xx_error (i : SingleInput) (m : MultiInput)
    (h1 : okStatus i.status = false) (h2 : okStatus m.searchStatus = false) :
    singleRun i = [SEv.error i.status] ∧
    multiRun m = [MEv.error m.searchStatus] := by
  constructor
  · simp [singleRun, h1]
  · simp [multiRun, h2]

theorem c5_witness :
    okStatus 429 = false ∧
    singleRun ⟨429, some [("x")], none⟩ = [SEv.error 429] ∧
    multiRun ⟨429, some JVal.jnull, 200, some [], 200, some JVal.jnull⟩ =
      [MEv.error 429] := by
  have h := c5_non2xx_error ⟨429, some [("x")], none⟩
    ⟨429, some JVal.jnull, 200, some [], 200, some JVal.jnull⟩
    (by decide) (by decide)
  exact ⟨by decide, h.1, h.2⟩

/-- C6: an abort that fires at the `k`-th read of an otherwise healthy
session swallows the `AbortError`: the trace is exactly the events of the
first `k` chunks — nothing further is emitted — and `onError` is never
invoked (the model is a total function, so no exception escapes). -/
theorem c6_abort_silent (status : Nat) (cs : List String) (k : Nat)
    (h : okStatus status = true) :
    singleRun ⟨status, some cs, some k⟩ = eventsOf (cs.take k) ∧
    ∀ n, SEv.error n ∉ singleRun ⟨status, some cs, some k⟩ := by
  have e1 : singleRun ⟨status, some cs, some k⟩ = eventsOf (cs.take k) := by
    simp [singleRun, h]
  refine ⟨e1, ?_⟩
  rw [e1]
  exact fun n => runChunks_no_error initState (((cs.take k)).map String.data) n

theorem c6_witness :
    okStatus 200 = true ∧
    singleRun ⟨200, some [("a\n"), ("b\n")], some 1⟩ = eventsOf [("a\n")] ∧
    ∀ n, SEv.error n ∉ singleRun ⟨200, some [("a\n"), ("b\n")], some 1⟩ := by
  have h := c6_abort_silent 200 [("a\n"), ("b\n")] 1 (by decide)
  exact ⟨by decide, h.1, h.2⟩

/-- C7: in a healthy single-stream session where the related-questions stage
sees the second sentinel at some iteration but its bracket-completeness
check fails at every iteration before end-of-stream, `onRelates` is never
invoked and no error is raised (the trace also contains no error event). -/
theorem c7_unclosed_relates_no_emission (status : Nat) (cs : List String)
    (h : okStatus status = true)
    (hseen : ∃ i, ∃ hi : i < (cs.map String.data).length,
      relSeenAt (stateAfter initState ((cs.map String.data).take i))
        ((cs.map String.data).get ⟨i, hi⟩) = true)
    (hfail : ∀ i (hi : i < (cs.map String.data).length),
      relCheckAt (stateAfter initState ((cs.map String.data).take i))
        ((cs.map String.data).get ⟨i, hi⟩) = false) :
    (∀ l, SEv.relates l ∉ singleRun ⟨status, some cs, none⟩) ∧
    ∀ n, SEv.error n ∉ singleRun ⟨status, some cs, none⟩ := by
  have e1 : singleRun ⟨status, some cs, none⟩ = eventsOf cs := by
    simp [singleRun, h]
  rw [e1]
  exact ⟨runChunks_no_relates initState (cs.map String.data) hfail,
    fun n => runChunks_no_error initState (cs.map String.data) n⟩

theorem c7_witness :
    okStatus 200 = true ∧
    relSeenAt initState (("__RELATED_QUESTIONS__[\"x").data) = true ∧
    relCheckAt initState (("__RELATED_QUESTIONS__[\"x").data) = false ∧
    ∀ l, SEv.relates l ∉ singleRun ⟨200, some [("__RELATED_QUESTIONS__[\"x")], none⟩ := by
  have h := c7_unclosed_relates_no_emission 200 [("__RELATED_QUESTIONS__[\"x")]
    (by decide)
    ⟨0, by decide, by decide⟩
    (by
      intro i hi
      have hi0 : i = 0 := Nat.lt_one_iff.mp (by simpa using hi)
      subst hi0
      show relCheckAt (stateAfter initState [])
        (("__RELATED_QUESTIONS__[\"x").data) = false
      decide)
  exact ⟨by decide, by decide, by decide, h.1⟩

/-- C8: on the source segment `'[{"id":1}]__LLM_RESPONSE__'` the
single-stream variant emits `onSources` exactly once with the parsed list
`[{"id":1}]`, and no markdown callback occurs, so no character of the JSON
text reaches `onMarkdown`. -/
theorem c8_source_segment :
    eventsOf [("[\x7b\"id\":1\x7d]__LLM_RESPONSE__")] =
      [SEv.sources (JVal.jarr [JVal.jobj [(("id").data, JVal.jnum (("1").data))]])] ∧
    ∀ s, SEv.markdown s ∉ eventsOf [("[\x7b\"id\":1\x7d]__LLM_RESPONSE__")] := by
  refine ⟨rfl, ?_⟩
  intro s hs
  rw [show eventsOf [("[\x7b\"id\":1\x7d]__LLM_RESPONSE__")] =
    [SEv.sources (JVal.jarr [JVal.jobj [(("id").data, JVal.jnum (("1").data))]])]
    from rfl] at hs
  simp at hs

/-- C9: on the related segment `'["q1","提出的问题：x","q2"]'` the
single-stream variant emits `onRelates` with exactly the records for
`"q1"` and `"q2"` in order; the entry prefixed by the backend placeholder
is dropped. -/
theorem c9_related_extraction :
    eventsOf [("__RELATED_QUESTIONS__[\"q1\",\"提出的问题：x\",\"q2\"]")] =
      [SEv.relates [⟨("q1").data⟩, ⟨("q2").data⟩]] := rfl

/-- C10: the citation-normalization pipeline maps
`"see [[citation:3]] here"` to `"see [citation](3) here"` and
`"[[Citation:12]]"` to `"[citation](12)"`. -/
theorem c10_normalization_examples :
    citationNormalize ("see [[citation:3]] here") = ("see [citation](3) here") ∧
    citationNormalize ("[[Citation:12]]") = ("[citation](12)") :=
  ⟨by decide, by decide⟩
